import Mathlib

/-!
Verification of the sliding-window rate limiter of `evelink/rate_limit.py`.

The limiter state is a bounded queue `recents` of slot records, oldest
first.  A record is `none` while the slot is pending (reserved, not yet
released) and `some ts` once released with completion timestamp `ts`.
Timestamps are modelled as rationals.  The operations below are direct
translations of the Python methods: `forgetOld` of `RateLimit.__forget_old`,
`appendPending` of the final `self.recents.append(None)` in `reserve`,
`fillPending` of the `does_not_count=False` branch of `RateLimit.release`
(fill the leftmost pending slot), `RateLimit.release` of the whole method
(returning `none` models the `ValueError` that `deque.remove` raises when
no pending record exists), and `reserveRun` of the single-threaded
blocking behaviour of `reserve` with idealized sleeps (a sleep of duration
`d` started at `now` wakes exactly at `now + d`).
-/

structure RateLimit where
  limit : Nat
  window : Rat
  recents : List (Option Rat)
deriving DecidableEq, Repr

def rateLimitInit (limit : Nat) (window : Rat) : RateLimit :=
  { limit := limit, window := window, recents := [] }

/-- The eviction loop of `__forget_old`: pop records from the front while
the front is completed and strictly older than the threshold `now - window`;
stop at the first pending record, the first fresh-enough completed record,
or an empty queue. -/
def dropExpired (threshold : Rat) : List (Option Rat) → List (Option Rat)
  | [] => []
  | none :: rest => none :: rest
  | some t :: rest => if t < threshold then dropExpired threshold rest else some t :: rest

def forgetOld (rl : RateLimit) (now : Rat) : RateLimit :=
  { rl with recents := dropExpired (now - rl.window) rl.recents }

def appendPending (rl : RateLimit) : RateLimit :=
  { rl with recents := rl.recents ++ [none] }

/-- The `for i, epoch in enumerate(self.recents)` loop of `release`: write
`some ts` over the first `none` and stop; leave the list unchanged when no
`none` occurs. -/
def fillFirstNone : List (Option Rat) → Rat → List (Option Rat)
  | [], _ => []
  | none :: rest, ts => some ts :: rest
  | some t :: rest, ts => some t :: fillFirstNone rest ts

/-- `deque.remove(None)`: drop the first `none`; `none` as result models the
`ValueError` raised when no `none` occurs. -/
def removeFirstNone : List (Option Rat) → Option (List (Option Rat))
  | [] => none
  | none :: rest => some rest
  | some t :: rest => (removeFirstNone rest).map (fun l => some t :: l)

def fillPending (rl : RateLimit) (ts : Rat) : RateLimit :=
  { rl with recents := fillFirstNone rl.recents ts }

def RateLimit.release (rl : RateLimit) (ts : Rat) (does_not_count : Bool) :
    Option RateLimit :=
  match does_not_count with
  | true => (removeFirstNone rl.recents).map (fun l => { rl with recents := l })
  | false => some (fillPending rl ts)

/-- The argument `reserve` passes to `time.sleep`: `secs_to_wait + 1e-3`
where `secs_to_wait = (recents[0] + window) - time.time()`. -/
def sleepArg (t window now : Rat) : Rat := (t + window - now) + 1 / 1000

/-- Single-threaded run of `reserve` starting at wall-clock time `now`, with
idealized sleeps: the loop evicts expired records, and while the queue is
full sleeps until the oldest completed record leaves the window, then
re-evicts and re-checks; a full queue whose front is pending blocks forever
here (no other thread can release), modelled as `none`; `fuel` bounds the
number of loop iterations.  On success it returns the new state and the
time at which `reserve` returns. -/
def reserveRun : RateLimit → Rat → Nat → Option (RateLimit × Rat)
  | _, _, 0 => none
  | rl, now, fuel + 1 =>
    let rl2 := forgetOld rl now
    if rl2.recents.length = rl2.limit then
      match rl2.recents.head? with
      | some (some t) => reserveRun rl2 (now + sleepArg t rl2.window now) fuel
      | _ => none
    else some (appendPending rl2, now)

/-- The `RateLimitManager`: a request-volume limiter and an error-volume
limiter. -/
structure Manager where
  request_limit : RateLimit
  error_limit : RateLimit
deriving DecidableEq, Repr

def managerInit : Manager :=
  { request_limit := rateLimitInit 30 1, error_limit := rateLimitInit 300 180 }

/-- `block_until_can_start_new_request`, under the sequential time model of
`reserveRun`: reserve the request limiter first, then the error limiter,
and return the final state, the return time and the elapsed wait. -/
def blockUntilCanStartNewRequest (m : Manager) (start : Rat) (fuel : Nat) :
    Option (Manager × Rat × Rat) :=
  match reserveRun m.request_limit start fuel with
  | none => none
  | some (rq, t1) =>
    match reserveRun m.error_limit t1 fuel with
    | none => none
    | some (er, t2) => some ({ request_limit := rq, error_limit := er }, t2, t2 - start)

/-- `RateLimitManager.finished`: release both limiters with the same
current-time completion timestamp, passing `does_not_count = success` to the
error limiter only. -/
def finished (m : Manager) (now : Rat) (success : Bool) : Option Manager :=
  match m.request_limit.release now false, m.error_limit.release now success with
  | some rq, some er => some { request_limit := rq, error_limit := er }
  | _, _ => none

/-- One atomic (lock-held) mutation of a limiter state, as performed by the
code: an eviction pass at some wall-clock time, the append of a pending
record at the end of `reserve` (the loop guard `len(recents) == limit` no
longer holds), a counting release, or a non-counting release (enabled only
when it does not raise). -/
inductive Step : RateLimit → RateLimit → Prop
  | forget (rl : RateLimit) (now : Rat) : Step rl (forgetOld rl now)
  | reserveAppend (rl : RateLimit) (h : rl.recents.length ≠ rl.limit) :
      Step rl (appendPending rl)
  | releaseFill (rl : RateLimit) (ts : Rat) : Step rl (fillPending rl ts)
  | releaseRemove (rl rl' : RateLimit) (ts : Rat) (h : rl.release ts true = some rl') :
      Step rl rl'

inductive Reachable (rl0 : RateLimit) : RateLimit → Prop
  | refl : Reachable rl0 rl0
  | step {rl rl' : RateLimit} : Reachable rl0 rl → Step rl rl' → Reachable rl0 rl'

/-- The timestamps of the completed records, in queue order. -/
def completedTs (l : List (Option Rat)) : List Rat := l.filterMap id

/-- `Step` refined with monotone release timestamps: the second component
tracks the largest timestamp passed to `release` so far, and each release
must carry a timestamp at least that large (as when every caller passes the
current wall-clock time). -/
inductive StepM : RateLimit × Rat → RateLimit × Rat → Prop
  | forget (rl : RateLimit) (last now : Rat) : StepM (rl, last) (forgetOld rl now, last)
  | reserveAppend (rl : RateLimit) (last : Rat) (h : rl.recents.length ≠ rl.limit) :
      StepM (rl, last) (appendPending rl, last)
  | releaseFill (rl : RateLimit) (last ts : Rat) (h : last ≤ ts) :
      StepM (rl, last) (fillPending rl ts, ts)
  | releaseRemove (rl rl' : RateLimit) (last ts : Rat)
      (h : rl.release ts true = some rl') (hts : last ≤ ts) :
      StepM (rl, last) (rl', ts)

inductive ReachableM (s0 : RateLimit × Rat) : RateLimit × Rat → Prop
  | refl : ReachableM s0 s0
  | step {s s' : RateLimit × Rat} : ReachableM s0 s → StepM s s' → ReachableM s0 s'

/-- The executions of `reserve` that invoke `time.sleep`, and the argument
passed: either the entry path (right after the eviction pass the queue is
full with a completed front; the clock may have advanced from `now` to
`now2` between the two `time.time()` calls), or the wait path (`reserve`
found the queue full with a pending front, blocked on the condition
variable while other threads moved the state from `rl` to `rl'`, woke to
find the front completed, and computes the sleep from it without a fresh
eviction pass). -/
inductive SleepCall (l : Nat) (w : Rat) : Rat → Prop
  | entry (rl : RateLimit) (now now2 t : Rat)
      (hreach : Reachable (rateLimitInit l w) rl)
      (hnow : now ≤ now2)
      (hfull : (forgetOld rl now).recents.length = l)
      (hhead : (forgetOld rl now).recents.head? = some (some t)) :
      SleepCall l w (sleepArg t w now2)
  | afterWait (rl rl' : RateLimit) (now t : Rat)
      (hreach : Reachable (rateLimitInit l w) rl)
      (hfull : rl.recents.length = l)
      (hhead : rl.recents.head? = some none)
      (hsteps : Reachable rl rl')
      (hhead2 : rl'.recents.head? = some (some t)) :
      SleepCall l w (sleepArg t w now)

/-! ### Facts about the eviction loop -/

theorem dropExpired_spec (th : Rat) (l : List (Option Rat)) :
    ∃ k, dropExpired th l = l.drop k ∧
      (∀ i, i < k → ∃ t, l[i]? = some (some t) ∧ t < th) ∧
      (dropExpired th l = [] ∨ (∃ rest, dropExpired th l = none :: rest) ∨
        (∃ t rest, dropExpired th l = some t :: rest ∧ th ≤ t)) := by
  induction l with
  | nil => exact ⟨0, rfl, fun i hi => absurd hi (Nat.not_lt_zero i), Or.inl rfl⟩
  | cons x rest ih =>
    match x with
    | none =>
      exact ⟨0, rfl, fun i hi => absurd hi (Nat.not_lt_zero i), Or.inr (Or.inl ⟨rest, rfl⟩)⟩
    | some t =>
      by_cases hlt : t < th
      · obtain ⟨k, hk, hexp, hstop⟩ := ih
        refine ⟨k + 1, ?_, ?_, ?_⟩
        · simpa [dropExpired, hlt] using hk
        · intro i hi
          match i with
          | 0 => exact ⟨t, by simp, hlt⟩
          | i + 1 =>
            obtain ⟨u, hu, hlt2⟩ := hexp i (Nat.lt_of_succ_lt_succ hi)
            exact ⟨u, by simpa using hu, hlt2⟩
        · simpa [dropExpired, hlt] using hstop
      · refine ⟨0, by simp [dropExpired, hlt], fun i hi => absurd hi (Nat.not_lt_zero i), ?_⟩
        exact Or.inr (Or.inr ⟨t, rest, by simp [dropExpired, hlt], le_of_not_lt hlt⟩)

theorem dropExpired_length_le (th : Rat) (l : List (Option Rat)) :
    (dropExpired th l).length ≤ l.length := by
  induction l with
  | nil => simp [dropExpired]
  | cons x rest ih =>
    match x with
    | none => simp [dropExpired]
    | some t =>
      by_cases hlt : t < th
      · simp only [dropExpired, if_pos hlt]
        exact le_trans ih (Nat.le_succ _)
      · simp [dropExpired, hlt]

theorem dropExpired_head (th : Rat) (l rest : List (Option Rat)) (t : Rat)
    (h : dropExpired th l = some t :: rest) : th ≤ t := by
  induction l with
  | nil => simp [dropExpired] at h
  | cons x r ih =>
    match x with
    | none => simp [dropExpired] at h
    | some u =>
      by_cases hlt : u < th
      · rw [dropExpired, if_pos hlt] at h
        exact ih h
      · rw [dropExpired, if_neg hlt] at h
        obtain ⟨h1, -⟩ := List.cons.inj h
        obtain rfl := Option.some.inj h1
        exact le_of_not_lt hlt

theorem mem_dropExpired (th u : Rat) (l : List (Option Rat))
    (hmem : some u ∈ l) (hle : th ≤ u) : some u ∈ dropExpired th l := by
  induction l with
  | nil => simp at hmem
  | cons x rest ih =>
    match x with
    | none => simpa [dropExpired] using hmem
    | some t =>
      by_cases hlt : t < th
      · rw [dropExpired, if_pos hlt]
        rcases List.mem_cons.mp hmem with heq | hmem2
        · obtain rfl := Option.some.inj heq
          exact absurd hlt (not_lt.mpr hle)
        · exact ih hmem2
      · rwa [dropExpired, if_neg hlt]

/-! ### Facts about the release helpers -/

theorem fillFirstNone_length (l : List (Option Rat)) (ts : Rat) :
    (fillFirstNone l ts).length = l.length := by
  induction l with
  | nil => rfl
  | cons x rest ih =>
    match x with
    | none => rfl
    | some t => simp [fillFirstNone, ih]

theorem fillFirstNone_of_not_mem (l : List (Option Rat)) (ts : Rat)
    (h : none ∉ l) : fillFirstNone l ts = l := by
  induction l with
  | nil => rfl
  | cons x rest ih =>
    match x with
    | none => exact absurd (List.mem_cons_self _ _) h
    | some t => rw [fillFirstNone, ih (fun hm => h (List.mem_cons_of_mem _ hm))]

theorem fillFirstNone_split (a b : List (Option Rat)) (ts : Rat) (ha : none ∉ a) :
    fillFirstNone (a ++ none :: b) ts = a ++ some ts :: b := by
  induction a with
  | nil => rfl
  | cons x a ih =>
    match x with
    | none => exact absurd (List.mem_cons_self _ _) ha
    | some t =>
      simp only [List.cons_append, fillFirstNone, List.append_eq]
      rw [ih (fun hm => ha (List.mem_cons_of_mem _ hm))]

theorem mem_fillFirstNone (l : List (Option Rat)) (ts : Rat) (h : none ∈ l) :
    some ts ∈ fillFirstNone l ts := by
  induction l with
  | nil => simp at h
  | cons x rest ih =>
    match x with
    | none => exact List.mem_cons_self _ _
    | some t =>
      rw [fillFirstNone]
      rcases List.mem_cons.mp h with heq | hmem
      · exact Option.noConfusion heq
      · exact List.mem_cons_of_mem _ (ih hmem)

theorem removeFirstNone_eq_none (l : List (Option Rat)) :
    removeFirstNone l = none ↔ none ∉ l := by
  induction l with
  | nil => simp [removeFirstNone]
  | cons x rest ih =>
    match x with
    | none => simp [removeFirstNone]
    | some t => simp [removeFirstNone, Option.map_eq_none', ih]

theorem removeFirstNone_length (l l' : List (Option Rat))
    (h : removeFirstNone l = some l') : l'.length + 1 = l.length := by
  induction l generalizing l' with
  | nil => simp [removeFirstNone] at h
  | cons x rest ih =>
    match x with
    | none =>
      rw [removeFirstNone] at h
      obtain rfl := Option.some.inj h
      rfl
    | some t =>
      rw [removeFirstNone] at h
      obtain ⟨l2, hl2, rfl⟩ := Option.map_eq_some'.mp h
      have := ih l2 hl2
      simp only [List.length_cons]
      omega

theorem removeFirstNone_split (a b : List (Option Rat)) (ha : none ∉ a) :
    removeFirstNone (a ++ none :: b) = some (a ++ b) := by
  induction a with
  | nil => rfl
  | cons x a ih =>
    match x with
    | none => exact absurd (List.mem_cons_self _ _) ha
    | some t =>
      simp only [List.cons_append, removeFirstNone, List.append_eq]
      rw [ih (fun hm => ha (List.mem_cons_of_mem _ hm))]
      rfl

theorem removeFirstNone_isSome (l : List (Option Rat)) (h : none ∈ l) :
    ∃ l', removeFirstNone l = some l' := by
  cases hr : removeFirstNone l with
  | none => exact absurd h ((removeFirstNone_eq_none l).mp hr)
  | some l' => exact ⟨l', rfl⟩

theorem release_true_def (rl : RateLimit) (ts : Rat) :
    rl.release ts true =
      (removeFirstNone rl.recents).map (fun l => { rl with recents := l }) := rfl

theorem release_false_def (rl : RateLimit) (ts : Rat) :
    rl.release ts false = some (fillPending rl ts) := rfl

theorem release_true_of_remove {rl : RateLimit} {ts : Rat} {l' : List (Option Rat)}
    (h : removeFirstNone rl.recents = some l') :
    rl.release ts true = some { rl with recents := l' } := by
  rw [release_true_def, h]
  rfl

theorem release_true_eq {rl rl' : RateLimit} {ts : Rat}
    (h : rl.release ts true = some rl') :
    ∃ l', removeFirstNone rl.recents = some l' ∧ rl' = { rl with recents := l' } := by
  rw [release_true_def] at h
  obtain ⟨l2, hl2, heq⟩ := Option.map_eq_some'.mp h
  exact ⟨l2, hl2, heq.symm⟩

/-! ### The shape of reachable queues: a completed block followed by a
pending block -/

theorem none_not_mem_map_some (cs : List Rat) : none ∉ cs.map some := by
  simp [List.mem_map]

theorem dropExpired_shape (th : Rat) (cs : List Rat) (ps : Nat) :
    ∃ k, dropExpired th (cs.map some ++ List.replicate ps none) =
      (cs.drop k).map some ++ List.replicate ps none := by
  induction cs with
  | nil =>
    refine ⟨0, ?_⟩
    match ps with
    | 0 => rfl
    | p + 1 => rfl
  | cons c cs ih =>
    by_cases hlt : c < th
    · obtain ⟨k, hk⟩ := ih
      exact ⟨k + 1, by simpa [dropExpired, hlt] using hk⟩
    · exact ⟨0, by simp [dropExpired, hlt]⟩

theorem fillFirstNone_shape (cs : List Rat) (ps : Nat) (ts : Rat) :
    fillFirstNone (cs.map some ++ List.replicate (ps + 1) none) ts =
      (cs ++ [ts]).map some ++ List.replicate ps none := by
  induction cs with
  | nil => rfl
  | cons c cs ih => simp [fillFirstNone, ih]

theorem removeFirstNone_shape (cs : List Rat) (ps : Nat) :
    removeFirstNone (cs.map some ++ List.replicate (ps + 1) none) =
      some (cs.map some ++ List.replicate ps none) := by
  induction cs with
  | nil => rfl
  | cons c cs ih => simp [removeFirstNone, ih]

def IsShape (l : List (Option Rat)) : Prop :=
  ∃ (cs : List Rat) (ps : Nat), l = cs.map some ++ List.replicate ps none

theorem isShape_step {rl rl' : RateLimit} (h : Step rl rl') (hs : IsShape rl.recents) :
    IsShape rl'.recents := by
  obtain ⟨cs, ps, hcs⟩ := hs
  cases h with
  | forget now =>
    obtain ⟨k, hk⟩ := dropExpired_shape (now - rl.window) cs ps
    refine ⟨cs.drop k, ps, ?_⟩
    simp only [forgetOld]
    rw [hcs]
    exact hk
  | reserveAppend hlen =>
    refine ⟨cs, ps + 1, ?_⟩
    simp only [appendPending, hcs, List.replicate_succ' ps, List.append_assoc]
  | releaseFill ts =>
    match ps with
    | 0 =>
      refine ⟨cs, 0, ?_⟩
      simp only [List.replicate, List.append_nil] at hcs
      simp only [fillPending, hcs, List.replicate, List.append_nil]
      exact fillFirstNone_of_not_mem _ ts (none_not_mem_map_some cs)
    | p + 1 =>
      refine ⟨cs ++ [ts], p, ?_⟩
      simp only [fillPending, hcs]
      exact fillFirstNone_shape cs p ts
  | releaseRemove x ts hrel =>
    obtain ⟨l', hl', rfl⟩ := release_true_eq hrel
    match ps with
    | 0 =>
      rw [hcs] at hl'
      simp only [List.replicate, List.append_nil] at hl'
      rw [removeFirstNone_eq_none _ |>.mpr (none_not_mem_map_some cs)] at hl'
      cases hl'
    | p + 1 =>
      rw [hcs, removeFirstNone_shape cs p] at hl'
      obtain rfl := Option.some.inj hl'
      exact ⟨cs, p, rfl⟩

theorem step_fields {rl rl' : RateLimit} (h : Step rl rl') :
    rl'.limit = rl.limit ∧ rl'.window = rl.window := by
  cases h with
  | forget now => exact ⟨rfl, rfl⟩
  | reserveAppend h => exact ⟨rfl, rfl⟩
  | releaseFill ts => exact ⟨rfl, rfl⟩
  | releaseRemove x ts hrel =>
    obtain ⟨l', hl', rfl⟩ := release_true_eq hrel
    exact ⟨rfl, rfl⟩

theorem step_length_le {rl rl' : RateLimit} (h : Step rl rl')
    (hlen : rl.recents.length ≤ rl.limit) : rl'.recents.length ≤ rl.limit := by
  cases h with
  | forget now => exact le_trans (dropExpired_length_le _ _) hlen
  | reserveAppend hne =>
    have hlt : rl.recents.length < rl.limit := lt_of_le_of_ne hlen hne
    simp only [appendPending, List.length_append, List.length_cons, List.length_nil]
    omega
  | releaseFill ts =>
    simpa only [fillPending, fillFirstNone_length] using hlen
  | releaseRemove x ts hrel =>
    obtain ⟨l', hl', rfl⟩ := release_true_eq hrel
    have := removeFirstNone_length _ _ hl'
    simp only []
    omega

/-- Everything that holds of every state reachable from a fresh limiter:
the construction parameters are unchanged, the queue never exceeds the
limit, and the queue is a block of completed records followed by a block of
pending records. -/
theorem reachable_inv (l : Nat) (w : Rat) (rl : RateLimit)
    (h : Reachable (rateLimitInit l w) rl) :
    rl.limit = l ∧ rl.window = w ∧ rl.recents.length ≤ l ∧ IsShape rl.recents := by
  induction h with
  | refl => exact ⟨rfl, rfl, by simp [rateLimitInit], ⟨[], 0, rfl⟩⟩
  | step hreach hstep ih =>
    obtain ⟨hl, hw, hlen, hshape⟩ := ih
    obtain ⟨hl', hw'⟩ := step_fields hstep
    refine ⟨hl'.trans hl, hw'.trans hw, ?_, isShape_step hstep hshape⟩
    have h1 := step_length_le hstep (by rw [hl]; exact hlen)
    rw [hl] at h1
    exact h1

/-! ### Claim theorems C1 - C4 -/

/-- C1: for every state reachable from a fresh limiter with positive limit,
by any interleaving of the atomic mutations of `reserve` and `release`, the
queue length (pending plus completed-but-unexpired records) never exceeds
the limit; and from a full queue no step of the code can append the new
pending record (the append is guarded by the exit of the
`while len(recents) == limit` loop). -/
theorem c1_capacity_invariant (l : Nat) (w : Rat) (rl : RateLimit)
    (hpos : 0 < l) (h : Reachable (rateLimitInit l w) rl) :
    rl.recents.length ≤ l ∧
      (rl.recents.length = l → ¬ Step rl (appendPending rl)) := by
  obtain ⟨hl, hw, hlen, hshape⟩ := reachable_inv l w rl h
  refine ⟨hlen, fun hfull hstep => ?_⟩
  have hle : rl.recents.length ≤ rl.limit := by rw [hl]; exact le_of_eq hfull
  have h2 := step_length_le hstep hle
  simp only [appendPending, List.length_append, List.length_cons,
    List.length_nil] at h2
  omega

theorem c1_capacity_invariant_witness :
    (rateLimitInit 1 1).recents.length ≤ 1 ∧
      ((rateLimitInit 1 1).recents.length = 1 →
        ¬ Step (rateLimitInit 1 1) (appendPending (rateLimitInit 1 1))) :=
  c1_capacity_invariant 1 1 (rateLimitInit 1 1) (by decide) Reachable.refl

/-- C2: `__forget_old` run at time `now` removes exactly a front segment of
records each of which is completed with timestamp strictly below
`now - window`, and stops there: the remaining queue is the corresponding
suffix and is empty, or starts with a pending record, or starts with a
completed record whose timestamp is at least `now - window`. -/
theorem c2_forget_old_exact (rl : RateLimit) (now : Rat) :
    ∃ k, (forgetOld rl now).recents = rl.recents.drop k ∧
      (∀ i, i < k → ∃ t, rl.recents[i]? = some (some t) ∧ t < now - rl.window) ∧
      ((forgetOld rl now).recents = [] ∨
        (∃ rest, (forgetOld rl now).recents = none :: rest) ∨
        (∃ t rest, (forgetOld rl now).recents = some t :: rest ∧
          now - rl.window ≤ t)) :=
  dropExpired_spec (now - rl.window) rl.recents

/-- C3: when the queue holds at least one pending record (the queue splits
as `a ++ none :: b` with no pending record in `a`), a counting release
writes `ts` into exactly that leftmost pending record and changes nothing
else, and a non-counting release removes exactly that one pending record
and leaves every other record unchanged. -/
theorem c3_release_leftmost (rl : RateLimit) (ts : Rat) (a b : List (Option Rat))
    (hsplit : rl.recents = a ++ none :: b) (ha : none ∉ a) :
    rl.release ts false = some { rl with recents := a ++ some ts :: b } ∧
    rl.release ts true = some { rl with recents := a ++ b } := by
  constructor
  · rw [release_false_def, fillPending, hsplit, fillFirstNone_split a b ts ha]
  · exact release_true_of_remove (by rw [hsplit]; exact removeFirstNone_split a b ha)

theorem c3_release_leftmost_witness :
    RateLimit.release ⟨2, 1, [some 3, none]⟩ 7 false =
        some ⟨2, 1, [some 3, some 7]⟩ ∧
      RateLimit.release ⟨2, 1, [some 3, none]⟩ 7 true = some ⟨2, 1, [some 3]⟩ :=
  c3_release_leftmost ⟨2, 1, [some 3, none]⟩ 7 [some 3] [] rfl (by decide)

/-- C4: from any reachable state in which `reserve` proceeds without
waiting (the queue is not at capacity once the entry eviction pass has run)
and in which that eviction pass removes nothing, `reserve` followed by
`release(ts, does_not_count=True)` restores the queue exactly to its
pre-reservation state, for every timestamp argument `ts`. -/
theorem c4_reserve_release_roundtrip (l : Nat) (w ts now : Rat) (rl : RateLimit)
    (h : Reachable (rateLimitInit l w) rl)
    (hnoexp : forgetOld rl now = rl)
    (hroom : rl.recents.length ≠ rl.limit) :
    RateLimit.release (appendPending (forgetOld rl now)) ts true = some rl := by
  rw [hnoexp]
  obtain ⟨-, -, -, cs, ps, hshape⟩ := reachable_inv l w rl h
  have hrm : removeFirstNone (appendPending rl).recents = some rl.recents := by
    show removeFirstNone (rl.recents ++ [none]) = some rl.recents
    rw [hshape, List.append_assoc, ← List.replicate_succ']
    rw [removeFirstNone_shape cs ps, ← hshape]
  calc RateLimit.release (appendPending rl) ts true
      = some { appendPending rl with recents := rl.recents } :=
        release_true_of_remove hrm
    _ = some rl := rfl

theorem c4_reserve_release_roundtrip_witness :
    RateLimit.release (appendPending (forgetOld (rateLimitInit 1 1) 0)) 5 true =
      some (rateLimitInit 1 1) :=
  c4_reserve_release_roundtrip 1 1 5 0 (rateLimitInit 1 1) Reachable.refl
    (by decide) (by decide)

/-! ### C5: ordering of completed timestamps -/

/-- C5 counterexample: with arbitrary timestamp arguments to `release`, a
state whose completed timestamps decrease in queue order is reachable
(reserve, reserve, release 10, release 5), refuting the invariant as
stated over all argument values. -/
theorem c5_counterexample :
    Reachable (rateLimitInit 2 1) ⟨2, 1, [some 10, some 5]⟩ ∧
      ¬ List.Chain' (fun a b => a ≤ b) (completedTs [some 10, some 5]) := by
  constructor
  · have r1 : Reachable (rateLimitInit 2 1) ⟨2, 1, [none]⟩ :=
      Reachable.step Reachable.refl (Step.reserveAppend (rateLimitInit 2 1) (by decide))
    have r2 : Reachable (rateLimitInit 2 1) ⟨2, 1, [none, none]⟩ :=
      Reachable.step r1 (Step.reserveAppend ⟨2, 1, [none]⟩ (by decide))
    have r3 : Reachable (rateLimitInit 2 1) ⟨2, 1, [some 10, none]⟩ :=
      Reachable.step r2 (Step.releaseFill ⟨2, 1, [none, none]⟩ 10)
    exact Reachable.step r3 (Step.releaseFill ⟨2, 1, [some 10, none]⟩ 5)
  · have he : completedTs [some 10, some 5] = [10, 5] := rfl
    rw [he]
    intro hc
    have h2 := (List.chain'_cons.mp hc).1
    norm_num at h2

theorem chain_le_drop (cs : List Rat) (k : Nat)
    (h : List.Chain' (fun a b => a ≤ b) cs) :
    List.Chain' (fun a b => a ≤ b) (cs.drop k) := by
  induction k generalizing cs with
  | zero => simpa using h
  | succ k ih =>
    match cs with
    | [] => simp
    | c :: cs => simpa using ih cs h.tail

theorem chain_le_append_last (cs : List Rat) (ts : Rat)
    (hch : List.Chain' (fun a b => a ≤ b) cs) (hle : ∀ c ∈ cs, c ≤ ts) :
    List.Chain' (fun a b => a ≤ b) (cs ++ [ts]) := by
  rw [List.chain'_append]
  refine ⟨hch, List.chain'_singleton ts, fun x hx y hy => ?_⟩
  have hy2 : ts = y := by simpa using hy
  subst hy2
  obtain ⟨hne, hxg⟩ := List.mem_getLast?_eq_getLast hx
  exact hle x (by rw [hxg]; exact List.getLast_mem hne)

/-- The invariant that yields the amended C5: the queue is a completed
block (sorted, all timestamps at most the largest release timestamp seen)
followed by a pending block. -/
def MonoShape (rl : RateLimit) (last : Rat) : Prop :=
  ∃ (cs : List Rat) (ps : Nat),
    rl.recents = cs.map some ++ List.replicate ps none ∧
      List.Chain' (fun a b => a ≤ b) cs ∧ ∀ c ∈ cs, c ≤ last

theorem stepM_monoShape {s s' : RateLimit × Rat} (h : StepM s s')
    (hm : MonoShape s.1 s.2) : MonoShape s'.1 s'.2 := by
  cases h with
  | forget rl last now =>
    obtain ⟨cs, ps, hcs, hch, hbd⟩ := hm
    obtain ⟨k, hk⟩ := dropExpired_shape (now - rl.window) cs ps
    refine ⟨cs.drop k, ps, ?_, chain_le_drop cs k hch,
      fun c hc => hbd c (List.drop_subset k cs hc)⟩
    show dropExpired (now - rl.window) rl.recents = _
    rw [show rl.recents = cs.map some ++ List.replicate ps none from hcs]
    exact hk
  | reserveAppend rl last hlen =>
    obtain ⟨cs, ps, hcs, hch, hbd⟩ := hm
    refine ⟨cs, ps + 1, ?_, hch, hbd⟩
    show rl.recents ++ [none] = _
    rw [show rl.recents = cs.map some ++ List.replicate ps none from hcs,
      List.replicate_succ' ps, List.append_assoc]
  | releaseFill rl last ts hts =>
    obtain ⟨cs, ps, hcs, hch, hbd⟩ := hm
    have hcs2 : rl.recents = cs.map some ++ List.replicate ps none := hcs
    have hbd2 : ∀ c ∈ cs, c ≤ last := hbd
    match ps with
    | 0 =>
      refine ⟨cs, 0, ?_, hch, fun c hc => le_trans (hbd2 c hc) hts⟩
      simp only [List.replicate, List.append_nil] at hcs2
      show fillFirstNone rl.recents ts = _
      rw [hcs2, List.replicate, List.append_nil]
      exact fillFirstNone_of_not_mem _ ts (none_not_mem_map_some cs)
    | p + 1 =>
      refine ⟨cs ++ [ts], p, ?_,
        chain_le_append_last cs ts hch (fun c hc => le_trans (hbd2 c hc) hts), ?_⟩
      · show fillFirstNone rl.recents ts = _
        rw [hcs2]
        exact fillFirstNone_shape cs p ts
      · intro c hc
        rcases List.mem_append.mp hc with hc | hc
        · exact le_trans (hbd2 c hc) hts
        · simp only [List.mem_singleton] at hc
          exact le_of_eq hc
  | releaseRemove rl rl' last ts hrel hts =>
    obtain ⟨cs, ps, hcs, hch, hbd⟩ := hm
    have hcs2 : rl.recents = cs.map some ++ List.replicate ps none := hcs
    have hbd2 : ∀ c ∈ cs, c ≤ last := hbd
    obtain ⟨l', hl', rfl⟩ := release_true_eq hrel
    match ps with
    | 0 =>
      rw [hcs2] at hl'
      simp only [List.replicate, List.append_nil] at hl'
      rw [removeFirstNone_eq_none _ |>.mpr (none_not_mem_map_some cs)] at hl'
      cases hl'
    | p + 1 =>
      rw [hcs2, removeFirstNone_shape cs p] at hl'
      obtain rfl := Option.some.inj hl'
      exact ⟨cs, p, rfl, hch, fun c hc => le_trans (hbd2 c hc) hts⟩

theorem reachableM_monoShape (l : Nat) (w t0 : Rat) (s : RateLimit × Rat)
    (h : ReachableM (rateLimitInit l w, t0) s) : MonoShape s.1 s.2 := by
  induction h with
  | refl => exact ⟨[], 0, rfl, by simp, by simp⟩
  | step hr hst ih => exact stepM_monoShape hst ih

theorem completedTs_shape (cs : List Rat) (ps : Nat) :
    completedTs (cs.map some ++ List.replicate ps none) = cs := by
  rw [completedTs, List.filterMap_append]
  have h1 : (cs.map some).filterMap id = cs := by
    induction cs with
    | nil => rfl
    | cons c cs ih => simp [ih]
  have h2 : (List.replicate ps none).filterMap (id : Option Rat → Option Rat) = [] := by
    induction ps with
    | zero => rfl
    | succ p ih => simp [List.replicate_succ, ih]
  rw [h1, h2, List.append_nil]

/-- C5 amended: when the timestamps passed to `release` are non-decreasing
over time (as in real use, where every caller passes the current wall-clock
time), the completed records of every reachable state have non-decreasing
timestamps in queue order. -/
theorem c5_completed_sorted_mono (l : Nat) (w t0 : Rat) (rl : RateLimit)
    (last : Rat) (h : ReachableM (rateLimitInit l w, t0) (rl, last)) :
    List.Chain' (fun a b => a ≤ b) (completedTs rl.recents) := by
  obtain ⟨cs, ps, hcs, hch, -⟩ := reachableM_monoShape l w t0 (rl, last) h
  rw [hcs, completedTs_shape]
  exact hch

theorem c5_completed_sorted_mono_witness :
    List.Chain' (fun a b => a ≤ b) (completedTs (rateLimitInit 1 1).recents) :=
  c5_completed_sorted_mono 1 1 0 (rateLimitInit 1 1) 0 ReachableM.refl

/-! ### C9: the sleep duration -/

/-- C9 counterexample: `reserve` can attempt a sleep of negative duration.
With limit 1 and window 1, a reserver blocks on the condition variable with
the queue full and its front pending; a release with timestamp -1000 fills
the front; on waking at time 0 the reserver computes
`sleepArg (-1000) 1 0 < 0` and passes it to `time.sleep` with no check
that the wake time is still in the future. -/
theorem c9_counterexample :
    SleepCall 1 1 (sleepArg (-1000) 1 0) ∧ sleepArg (-1000) 1 0 < 0 := by
  constructor
  · refine SleepCall.afterWait ⟨1, 1, [none]⟩ ⟨1, 1, [some (-1000)]⟩ 0 (-1000)
      ?_ (by decide) (by decide) ?_ (by decide)
    · exact Reachable.step Reachable.refl
        (Step.reserveAppend (rateLimitInit 1 1) (by decide))
    · exact Reachable.step Reachable.refl (Step.releaseFill ⟨1, 1, [none]⟩ (-1000))
  · norm_num [sleepArg]

/-- C9 amended: the code performs the timed sleep unconditionally whenever
the capacity loop observes a completed front record, with no check that the
wake time is in the future, so the slept duration can be negative (see the
counterexample); what does hold is that on the entry path, immediately
after the eviction pass and with no clock advance between the two clock
readings, the computed sleep argument is strictly positive, because the
surviving front record is within the window. -/
theorem sleepArg_pos_of_forgetOld_head (rl : RateLimit) (now t : Rat)
    (hhead : (forgetOld rl now).recents.head? = some (some t)) :
    0 < sleepArg t rl.window now := by
  cases hl : (forgetOld rl now).recents with
  | nil => rw [hl] at hhead; cases hhead
  | cons x rest =>
    rw [hl] at hhead
    simp only [List.head?_cons, Option.some.injEq] at hhead
    subst hhead
    have hth : now - rl.window ≤ t :=
      dropExpired_head (now - rl.window) rl.recents rest t hl
    simp only [sleepArg]
    linarith

theorem c9_sleep_pos_after_eviction (rl : RateLimit) (now t : Rat)
    (hhead : (forgetOld rl now).recents.head? = some (some t)) :
    0 < sleepArg t rl.window now :=
  sleepArg_pos_of_forgetOld_head rl now t hhead

theorem c9_sleep_pos_after_eviction_witness :
    0 < sleepArg 5 (1 : Rat) 5 :=
  c9_sleep_pos_after_eviction ⟨1, 1, [some 5]⟩ 5 5 (by norm_num [forgetOld, dropExpired])

/-! ### C10: release with no pending record -/

/-- C10 counterexample: with no pending record in the queue, a counting
release (`does_not_count=False`) does not fail loudly: the fill loop finds
no pending slot and the call returns silently with the queue unchanged. -/
theorem c10_counterexample :
    RateLimit.release ⟨1, 1, [some 3]⟩ 5 false = some ⟨1, 1, [some 3]⟩ := rfl

/-- C10 amended: with no pending record, `release(ts, does_not_count=True)`
raises (`deque.remove` raises `ValueError`, modelled as `none`), but
`release(ts, does_not_count=False)` silently returns with the queue
unchanged — loud failure holds only for the non-counting variant; the
counting variant neither fails nor corrupts the queue. -/
theorem c10_release_no_pending (rl : RateLimit) (ts : Rat)
    (h : none ∉ rl.recents) :
    rl.release ts true = none ∧ rl.release ts false = some rl := by
  constructor
  · rw [release_true_def, (removeFirstNone_eq_none _).mpr h]
    rfl
  · rw [release_false_def, fillPending, fillFirstNone_of_not_mem _ ts h]

theorem c10_release_no_pending_witness :
    RateLimit.release ⟨1, 1, [some 3]⟩ 5 true = none ∧
      RateLimit.release ⟨1, 1, [some 3]⟩ 5 false = some ⟨1, 1, [some 3]⟩ :=
  c10_release_no_pending ⟨1, 1, [some 3]⟩ 5 (by decide)

/-! ### The sequential timing model: unfolding lemmas for `reserveRun` -/

theorem reserveRun_succ (rl : RateLimit) (now : Rat) (fuel : Nat) :
    reserveRun rl now (fuel + 1) =
      (let rl2 := forgetOld rl now
       if rl2.recents.length = rl2.limit then
         match rl2.recents.head? with
         | some (some t) => reserveRun rl2 (now + sleepArg t rl2.window now) fuel
         | _ => none
       else some (appendPending rl2, now)) := rfl

theorem reserveRun_full_step (rl : RateLimit) (now : Rat) (fuel : Nat) (t : Rat)
    (hfull : (forgetOld rl now).recents.length = rl.limit)
    (hhead : (forgetOld rl now).recents.head? = some (some t)) :
    reserveRun rl now (fuel + 1) =
      reserveRun (forgetOld rl now) (now + sleepArg t rl.window now) fuel := by
  rw [reserveRun_succ]
  dsimp only
  rw [if_pos (show (forgetOld rl now).recents.length = (forgetOld rl now).limit from hfull),
    hhead]
  rfl

theorem reserveRun_avail_step (rl : RateLimit) (now : Rat) (fuel : Nat)
    (hroom : (forgetOld rl now).recents.length ≠ rl.limit) :
    reserveRun rl now (fuel + 1) = some (appendPending (forgetOld rl now), now) := by
  rw [reserveRun_succ]
  dsimp only
  rw [if_neg (show ¬ (forgetOld rl now).recents.length = (forgetOld rl now).limit from hroom)]

theorem reserveRun_time_mono (fuel : Nat) : ∀ (rl rl2 : RateLimit) (now t2 : Rat),
    reserveRun rl now fuel = some (rl2, t2) → now ≤ t2 := by
  induction fuel with
  | zero => intro rl rl2 now t2 h; simp [reserveRun] at h
  | succ fuel ih =>
    intro rl rl2 now t2 h
    rw [reserveRun_succ] at h
    dsimp only at h
    split at h
    · split at h
      · rename_i t heq
        have hpos := sleepArg_pos_of_forgetOld_head rl now t heq
        have hle := ih _ _ _ _ h
        have hw : (forgetOld rl now).window = rl.window := rfl
        rw [hw] at hle
        linarith
      · exact Option.noConfusion h
    · simp only [Option.some.injEq, Prod.mk.injEq] at h
      exact le_of_eq h.2

/-! ### C6: the dual-gate admission -/

/-- C6: whenever `block_until_can_start_new_request` returns, it returns
the elapsed wait `tEnd - start`, which is non-negative; the request limiter
is reserved first and the error limiter only afterwards, starting from the
time at which the request reservation completed; and when the request
limiter blocks forever, the call never returns and the error limiter is
never touched (the result does not depend on the error limiter at all). -/
theorem c6_admission_order_and_elapsed (m : Manager) (start : Rat) (fuel : Nat)
    (m' : Manager) (tEnd elapsed : Rat)
    (h : blockUntilCanStartNewRequest m start fuel = some (m', tEnd, elapsed)) :
    (elapsed = tEnd - start ∧ 0 ≤ elapsed ∧
      ∃ rq t1, reserveRun m.request_limit start fuel = some (rq, t1) ∧
        start ≤ t1 ∧ t1 ≤ tEnd ∧
        reserveRun m.error_limit t1 fuel = some (m'.error_limit, tEnd) ∧
        m'.request_limit = rq) ∧
    ∀ (rq er : RateLimit) (s : Rat) (f : Nat), reserveRun rq s f = none →
      blockUntilCanStartNewRequest ⟨rq, er⟩ s f = none := by
  refine ⟨?_, fun rq er s f hnone => ?_⟩
  · unfold blockUntilCanStartNewRequest at h
    split at h
    · exact Option.noConfusion h
    · rename_i rq t1 heq1
      split at h
      · exact Option.noConfusion h
      · rename_i er t2 heq2
        simp only [Option.some.injEq, Prod.mk.injEq] at h
        obtain ⟨hm', ht, hel⟩ := h
        have hmono1 := reserveRun_time_mono fuel _ _ _ _ heq1
        have hmono2 := reserveRun_time_mono fuel _ _ _ _ heq2
        subst hm' ht hel
        refine ⟨rfl, by linarith, rq, t1, heq1, hmono1, hmono2, heq2, rfl⟩
  · unfold blockUntilCanStartNewRequest
    dsimp only
    rw [hnone]

theorem c6_admission_order_and_elapsed_witness :
    ((0 : Rat) - 0 = 0 - 0 ∧ (0 : Rat) ≤ 0 - 0 ∧
      ∃ rq t1, reserveRun managerInit.request_limit 0 1 = some (rq, t1) ∧
        (0 : Rat) ≤ t1 ∧ t1 ≤ 0 ∧
        reserveRun managerInit.error_limit t1 1 =
          some ((Manager.mk ⟨30, 1, [none]⟩ ⟨300, 180, [none]⟩).error_limit, 0) ∧
        (Manager.mk ⟨30, 1, [none]⟩ ⟨300, 180, [none]⟩).request_limit = rq) ∧
    ∀ (rq er : RateLimit) (s : Rat) (f : Nat), reserveRun rq s f = none →
      blockUntilCanStartNewRequest ⟨rq, er⟩ s f = none :=
  c6_admission_order_and_elapsed managerInit 0 1
    (Manager.mk ⟨30, 1, [none]⟩ ⟨300, 180, [none]⟩) 0 (0 - 0) (by
      have h1 : reserveRun (rateLimitInit 30 1) 0 1 = some (⟨30, 1, [none]⟩, 0) :=
        reserveRun_avail_step (rateLimitInit 30 1) 0 0 (by decide)
      have h2 : reserveRun (rateLimitInit 300 180) 0 1 = some (⟨300, 180, [none]⟩, 0) :=
        reserveRun_avail_step (rateLimitInit 300 180) 0 0 (by decide)
      unfold blockUntilCanStartNewRequest
      dsimp only [managerInit]
      rw [h1]
      dsimp only
      rw [h2])

/-! ### C7: completion on the dual gate -/

/-- C7: `finished` records the same completion timestamp `now` on both
limiters and passes `does_not_count = success` to the error limiter only:
after `finished(success=True)` the error-limiter slot is removed
immediately, with no window condition (one record fewer); after
`finished(success=False)` the error-limiter record stays, completed at
`now`, and survives every eviction pass run at any time `u` with
`u - window ≤ now`, so it occupies capacity until its window expires. -/
theorem c7_finished_pessimistic (m : Manager) (now : Rat)
    (herr : none ∈ m.error_limit.recents) :
    (∃ m1, finished m now true = some m1 ∧
        m1.request_limit = fillPending m.request_limit now ∧
        m1.error_limit.recents.length + 1 = m.error_limit.recents.length) ∧
    (∃ m2, finished m now false = some m2 ∧
        m2.request_limit = fillPending m.request_limit now ∧
        m2.error_limit = fillPending m.error_limit now ∧
        m2.error_limit.recents.length = m.error_limit.recents.length ∧
        some now ∈ m2.error_limit.recents ∧
        ∀ u : Rat, u - m.error_limit.window ≤ now →
          some now ∈ (forgetOld m2.error_limit u).recents) := by
  obtain ⟨l', hl'⟩ := removeFirstNone_isSome _ herr
  have htrue : m.error_limit.release now true =
      some { m.error_limit with recents := l' } := release_true_of_remove hl'
  have e1 : finished m now true =
      some ⟨fillPending m.request_limit now,
        { m.error_limit with recents := l' }⟩ := by
    unfold finished
    rw [htrue, release_false_def]
  have e2 : finished m now false =
      some ⟨fillPending m.request_limit now, fillPending m.error_limit now⟩ := by
    unfold finished
    simp only [release_false_def]
  constructor
  · exact ⟨_, e1, rfl, removeFirstNone_length _ _ hl'⟩
  · refine ⟨_, e2, rfl, rfl, fillFirstNone_length _ _, mem_fillFirstNone _ _ herr,
      fun u hu => ?_⟩
    exact mem_dropExpired (u - m.error_limit.window) now _
      (mem_fillFirstNone _ _ herr) hu

theorem c7_finished_pessimistic_witness :
    (∃ m1, finished (Manager.mk ⟨1, 1, [none]⟩ ⟨1, 1, [none]⟩) 2 true = some m1 ∧
        m1.request_limit =
          fillPending (Manager.mk ⟨1, 1, [none]⟩ ⟨1, 1, [none]⟩).request_limit 2 ∧
        m1.error_limit.recents.length + 1 =
          (Manager.mk ⟨1, 1, [none]⟩ ⟨1, 1, [none]⟩).error_limit.recents.length) ∧
    (∃ m2, finished (Manager.mk ⟨1, 1, [none]⟩ ⟨1, 1, [none]⟩) 2 false = some m2 ∧
        m2.request_limit =
          fillPending (Manager.mk ⟨1, 1, [none]⟩ ⟨1, 1, [none]⟩).request_limit 2 ∧
        m2.error_limit =
          fillPending (Manager.mk ⟨1, 1, [none]⟩ ⟨1, 1, [none]⟩).error_limit 2 ∧
        m2.error_limit.recents.length =
          (Manager.mk ⟨1, 1, [none]⟩ ⟨1, 1, [none]⟩).error_limit.recents.length ∧
        some 2 ∈ m2.error_limit.recents ∧
        ∀ u : Rat,
          u - (Manager.mk ⟨1, 1, [none]⟩ ⟨1, 1, [none]⟩).error_limit.window ≤ 2 →
          some 2 ∈ (forgetOld m2.error_limit u).recents) :=
  c7_finished_pessimistic (Manager.mk ⟨1, 1, [none]⟩ ⟨1, 1, [none]⟩) 2 (by decide)

/-! ### C8: admission timing -/

/-- C8: with limit `N > 0` and window `W`, starting from `N` slots all
released at timestamp 0 (the state after `N` instant reservations each
released immediately), a further `reserve` entered at any time
`t ∈ [0, W]` does not return before time `0 + W`, and returns at exactly
`W + 1/1000` in the idealized timing model — the oldest record's expiry
plus the code's fixed epsilon; in particular with `N = 2`, `W = 1`,
`t = 1/10` it returns at `1.001 ≈ 1.0` (see the witness). -/
theorem c8_admission_timing (N : Nat) (W t : Rat) (hN : 0 < N)
    (ht0 : 0 ≤ t) (htW : t ≤ W) :
    reserveRun ⟨N, W, List.replicate N (some 0)⟩ t 2 =
        some (⟨N, W, [none]⟩, t + sleepArg 0 W t) ∧
      (0 : Rat) + W ≤ t + sleepArg 0 W t ∧
      t + sleepArg 0 W t = W + 1 / 1000 := by
  obtain ⟨n, rfl⟩ : ∃ n, N = n + 1 := ⟨N - 1, by omega⟩
  have h3 : t + sleepArg 0 W t = W + 1 / 1000 := by
    simp only [sleepArg]
    ring
  have hdrop1 : dropExpired (t - W) (List.replicate (n + 1) (some 0)) =
      List.replicate (n + 1) (some 0) := by
    rw [List.replicate_succ, dropExpired, if_neg (by linarith)]
  have hdrop2 : ∀ m : Nat,
      dropExpired (t + sleepArg 0 W t - W) (List.replicate m (some 0)) = [] := by
    intro m
    induction m with
    | zero => rfl
    | succ m ih =>
      rw [List.replicate_succ, dropExpired, if_pos (by rw [h3]; norm_num), ih]
  have hfo1 : forgetOld ⟨n + 1, W, List.replicate (n + 1) (some 0)⟩ t =
      ⟨n + 1, W, List.replicate (n + 1) (some 0)⟩ := by
    simp only [forgetOld]
    rw [hdrop1]
  have hfo2 : forgetOld ⟨n + 1, W, List.replicate (n + 1) (some 0)⟩
        (t + sleepArg 0 W t) =
      ⟨n + 1, W, ([] : List (Option Rat))⟩ := by
    simp only [forgetOld]
    rw [hdrop2]
  refine ⟨?_, by rw [h3]; linarith, h3⟩
  have s1 : reserveRun ⟨n + 1, W, List.replicate (n + 1) (some 0)⟩ t 2 =
      reserveRun (forgetOld ⟨n + 1, W, List.replicate (n + 1) (some 0)⟩ t)
        (t + sleepArg 0 W t) 1 := by
    refine reserveRun_full_step _ t 1 0 ?_ ?_
    · rw [hfo1]
      simp
    · rw [hfo1]
      show (List.replicate (n + 1) (some (0 : Rat))).head? = some (some 0)
      rw [List.replicate_succ]
      rfl
  rw [s1, hfo1]
  have s2 : reserveRun ⟨n + 1, W, List.replicate (n + 1) (some 0)⟩
        (t + sleepArg 0 W t) 1 =
      some (appendPending (forgetOld ⟨n + 1, W, List.replicate (n + 1) (some 0)⟩
        (t + sleepArg 0 W t)), t + sleepArg 0 W t) := by
    refine reserveRun_avail_step _ _ 0 ?_
    rw [hfo2]
    simp
  rw [s2, hfo2]
  rfl

theorem c8_admission_timing_witness :
    reserveRun ⟨2, 1, List.replicate 2 (some 0)⟩ (1 / 10) 2 =
        some (⟨2, 1, [none]⟩, 1 / 10 + sleepArg 0 1 (1 / 10)) ∧
      (0 : Rat) + 1 ≤ 1 / 10 + sleepArg 0 1 (1 / 10) ∧
      1 / 10 + sleepArg 0 1 (1 / 10) = 1 + 1 / 1000 :=
  c8_admission_timing 2 1 (1 / 10) (by norm_num) (by norm_num) (by norm_num)
